import Mathlib

/-!
Verification of `lev-rs` (`src/lib.rs`), a Rust library computing the
Levenshtein distance between two strings.

Modelling choices, mirroring the Rust source:

* A Rust `&str` is modelled as its sequence of Unicode scalar values,
  `List Char`.  Rust `str::len` is the UTF-8 *byte* length, modelled by
  `byteLen`.  Rust `s.chars().nth(i)` is `s[i]?  :  Option Char`, and the
  comparison `a.chars().nth(x) == b.chars().nth(y)` is equality of those
  `Option Char` values (in Rust `None == None` holds).
* Rust `Vec<usize>` is `List Nat`; indexed reads `v[i]` are `v[i]?` and
  indexed writes `v[i] = x` are `vset v i x`, both returning `none` exactly
  when Rust would panic with an out-of-bounds index.  Fallible computations
  run in the `Option` monad: a `none` result models a panic.
* Rust byte-slicing `&s[1..]` (used by `naive_distance`) is `drop1 s`:
  it removes the first byte, so it panics (`none`) unless the first
  character occupies exactly one byte.
-/

namespace LevRs

/-- UTF-8 byte length of the string whose characters are `s`; this is what
Rust `str::len` returns. -/
def byteLen (s : List Char) : Nat := (s.map Char.utf8Size).sum

/-- Model of `fn min3<T: Ord>(a: T, b: T, c: T) -> T { cmp::min(cmp::min(a, b), c) }`
at the type `usize` it is used at. -/
def min3 (a b c : Nat) : Nat := min (min a b) c

/-- Model of Rust `v[i] = x` on a `Vec<usize>`: `none` models the
out-of-bounds panic. -/
def vset (l : List Nat) (i v : Nat) : Option (List Nat) :=
  if i < l.length then some (l.set i v) else none

/-- Model of Rust `&s[1..]` on a nonempty `&str`: drops the first byte,
panicking (`none`) unless the first character is a one-byte character
(otherwise byte 1 is not a char boundary). -/
def drop1 (s : List Char) : Option (List Char) :=
  match s with
  | [] => none
  | c :: rest => if c.utf8Size = 1 then some rest else none

/-- Helper for `lev`: given `f = lev xs`, computes `lev (x :: xs)` by
structural recursion on the second list, so that `lev` is a structurally
recursive (hence kernel-computable) function. -/
def levRow {α : Type} [DecidableEq α] (f : List α → Nat) (x : α) : List α → Nat
  | [] => f [] + 1
  | y :: ys => if x = y then f ys else 1 + min3 (f (y :: ys)) (levRow f x ys) (f ys)

/-- The textbook Levenshtein distance on sequences, by the standard
head recursion.  This is the specification-side reference function; the
embedded Rust implementations are compared against it. -/
def lev {α : Type} [DecidableEq α] : List α → List α → Nat
  | [], b => b.length
  | x :: xs, b => levRow (lev xs) x b

/-- One single-character edit, at an arbitrary position: insert one
character, delete one character, or substitute one character for another
(a different one).  The `cons` constructor locates the edit deeper in the
list. -/
inductive EditStep {α : Type} : List α → List α → Prop
  | insert (c : α) (l : List α) : EditStep l (c :: l)
  | delete (c : α) (l : List α) : EditStep (c :: l) l
  | subst (c d : α) (l : List α) : c ≠ d → EditStep (c :: l) (d :: l)
  | cons (c : α) {l l' : List α} : EditStep l l' → EditStep (c :: l) (c :: l')

/-- A chain of `n` single-character edits transforming one sequence into
another. -/
inductive EditChain {α : Type} : Nat → List α → List α → Prop
  | nil (l : List α) : EditChain 0 l l
  | step {n : Nat} {l l' l'' : List α} :
      EditStep l l' → EditChain n l' l'' → EditChain (n + 1) l l''

/-- `n` is the minimum number of single-character edits transforming `a`
into `b`: some chain of `n` edits exists, and no shorter chain does. -/
def IsMinEdits {α : Type} (a b : List α) (n : Nat) : Prop :=
  EditChain n a b ∧ ∀ m, EditChain m a b → n ≤ m

/-- The sequence of `Option Char` values `s.chars().nth(0), …,
s.chars().nth(s.len() - 1)` that the Rust code effectively works with when
it indexes characters by *byte* positions: the characters of `s` followed
by `byteLen s - s.length` copies of `none`. -/
def pad (s : List Char) : List (Option Char) :=
  s.map some ++ List.replicate (byteLen s - s.length) none

/-- Model of the row-initialisation in `single_row_distance` (and of the
identical loop in `double_row_distance`):
`let mut row = vec![0; a.len() + 1]; for i in 0..row.len() { row[i] = i }`. -/
def initRow (a : List Char) : Option (List Nat) :=
  (List.range (byteLen a + 1)).foldlM (fun r i => vset r i i)
    (List.replicate (byteLen a + 1) 0)

/-- Body of the inner loop `for x in 0..a.len()` of `single_row_distance`.
State is the pair `(last, row)`.  Mirrors:
`if a.chars().nth(x) == b.chars().nth(y) { (last, row[x+1]) = (row[x+1], last); }
else { let tmp = last; last = row[x+1]; row[x+1] = 1 + min3(tmp, row[x], row[x+1]); }`. -/
def srStep (a b : List Char) (y : Nat) (st : Nat × List Nat) (x : Nat) :
    Option (Nat × List Nat) := do
  let (last, row) := st
  if a[x]? = b[y]? then
    let rx1 ← row[x+1]?
    let row' ← vset row (x+1) last
    pure (rx1, row')
  else
    let tmp := last
    let rx1 ← row[x+1]?
    let rx ← row[x]?
    let row' ← vset row (x+1) (1 + min3 tmp rx rx1)
    pure (rx1, row')

/-- Body of the outer loop `for y in 0..b.len()` of `single_row_distance`.
Mirrors `(last, row[0]) = (row[0], y + 1);` followed by the inner loop
(the incoming value of `last` is dead at the top of the loop body, as in
the Rust source where `last` is reassigned before any use). -/
def srRow (a b : List Char) (st : Nat × List Nat) (y : Nat) :
    Option (Nat × List Nat) := do
  let (_, row) := st
  let r0 ← row[0]?
  let row' ← vset row 0 (y + 1)
  (List.range (byteLen a)).foldlM (srStep a b y) (r0, row')

/-- Model of Rust `single_row_distance`.  Returns `none` exactly when the
Rust function would panic. -/
def single_row_distance (a b : List Char) : Option Nat :=
  if byteLen a = 0 then some (byteLen b)
  else if byteLen b = 0 then some (byteLen a)
  else do
    let row ← initRow a
    let st ← (List.range (byteLen b)).foldlM (srRow a b) (0, row)
    st.2[byteLen a]?

/-- Model of the public entry point `pub fn distance(a: &str, b: &str) -> usize`,
which delegates to `single_row_distance`. -/
def distance (a b : List Char) : Option Nat := single_row_distance a b

/-- Fuel-indexed model of the recursive `naive_distance`; the fuel only
bounds the recursion depth (the Rust recursion terminates because the
total byte length shrinks at every call, so any fuel above the total byte
length is enough; `naive_distance` below supplies such a fuel). -/
def naiveFuel : Nat → List Char → List Char → Option Nat
  | 0, _, _ => none
  | fuel + 1, a, b =>
    if byteLen a = 0 then some (byteLen b)
    else if byteLen b = 0 then some (byteLen a)
    else if a[0]? = b[0]? then do
      let a' ← drop1 a
      let b' ← drop1 b
      naiveFuel fuel a' b'
    else do
      let a' ← drop1 a
      let b' ← drop1 b
      let d1 ← naiveFuel fuel a' b
      let d2 ← naiveFuel fuel a b'
      let d3 ← naiveFuel fuel a' b'
      pure (1 + min3 d1 d2 d3)

/-- Model of Rust `naive_distance`. -/
def naive_distance (a b : List Char) : Option Nat :=
  naiveFuel (byteLen a + byteLen b + 1) a b

/-- Model of the index closure in `matrix_distance`:
`|x, y| (y * (a.len() + 1)) + x`. -/
def matIndex (a : List Char) (x y : Nat) : Nat := y * (byteLen a + 1) + x

/-- Model of Rust `matrix_distance` (full-matrix formulation, flat vector). -/
def matrix_distance (a b : List Char) : Option Nat :=
  if byteLen a = 0 then some (byteLen b)
  else if byteLen b = 0 then some (byteLen a)
  else do
    let m0 := List.replicate ((byteLen a + 1) * (byteLen b + 1)) 0
    let m1 ← (List.range (byteLen a + 1)).foldlM
      (fun m x => vset m (matIndex a x 0) x) m0
    let m2 ← (List.range (byteLen b + 1)).foldlM
      (fun m y => vset m (matIndex a 0 y) y) m1
    let m3 ← (List.range (byteLen b)).foldlM (fun m yy =>
      (List.range (byteLen a)).foldlM (fun m xx => do
        let x := xx + 1
        let y := yy + 1
        if a[x - 1]? = b[y - 1]? then do
          let d ← m[matIndex a (x - 1) (y - 1)]?
          vset m (matIndex a x y) d
        else do
          let u ← m[matIndex a (x - 1) y]?
          let v ← m[matIndex a x (y - 1)]?
          let w ← m[matIndex a (x - 1) (y - 1)]?
          vset m (matIndex a x y) (1 + min3 u v w)) m) m2
    m3[m3.length - 1]?

/-- Body of the inner loop of `double_row_distance`.  State is
`(row1, row2)`. -/
def drStep (a b : List Char) (y : Nat) (st : List Nat × List Nat) (x : Nat) :
    Option (List Nat × List Nat) := do
  let (row1, row2) := st
  if a[x]? = b[y]? then
    let v ← row1[x]?
    let row2' ← vset row2 (x + 1) v
    pure (row1, row2')
  else
    let u ← row1[x + 1]?
    let v ← row1[x]?
    let w ← row2[x]?
    let row2' ← vset row2 (x + 1) (1 + min3 u v w)
    pure (row1, row2')

/-- Body of the outer loop of `double_row_distance`:
`(row1, row2) = (row2, row1); row2[0] = y + 1;` then the inner loop. -/
def drRow (a b : List Char) (st : List Nat × List Nat) (y : Nat) :
    Option (List Nat × List Nat) := do
  let (r1, r2) := st
  let row1 := r2
  let row2 := r1
  let row2' ← vset row2 0 (y + 1)
  (List.range (byteLen a)).foldlM (drStep a b y) (row1, row2')

/-- Model of Rust `double_row_distance` (two-row formulation). -/
def double_row_distance (a b : List Char) : Option Nat :=
  if byteLen a = 0 then some (byteLen b)
  else if byteLen b = 0 then some (byteLen a)
  else do
    let row1 := List.replicate (byteLen a + 1) 0
    let row2 ← initRow a
    let st ← (List.range (byteLen b)).foldlM (drRow a b) (row1, row2)
    st.2[st.2.length - 1]?

/-! Arithmetic facts about `min3`. -/

theorem min3_le_left (a b c : Nat) : min3 a b c ≤ a :=
  le_trans (min_le_left _ _) (min_le_left _ _)

theorem min3_le_middle (a b c : Nat) : min3 a b c ≤ b :=
  le_trans (min_le_left _ _) (min_le_right _ _)

theorem min3_le_right (a b c : Nat) : min3 a b c ≤ c :=
  min_le_right _ _

theorem min3_cases (a b c : Nat) : min3 a b c = a ∨ min3 a b c = b ∨ min3 a b c = c := by
  unfold min3
  omega

theorem min3_rotate (a b c : Nat) : min3 a b c = min3 c a b := by
  unfold min3
  omega

/-! Basic facts about `byteLen` and `pad`. -/

theorem length_le_byteLen (s : List Char) : s.length ≤ byteLen s := by
  induction s with
  | nil => simp [byteLen]
  | cons c rest ih =>
    have h1 : 1 ≤ c.utf8Size := Char.utf8Size_pos c
    simp only [byteLen, List.map_cons, List.sum_cons, List.length_cons] at ih ⊢
    omega

theorem byteLen_nil : byteLen [] = 0 := rfl

theorem byteLen_eq_zero_iff (s : List Char) : byteLen s = 0 ↔ s = [] := by
  constructor
  · intro h
    cases s with
    | nil => rfl
    | cons c rest =>
      have h1 : 1 ≤ c.utf8Size := Char.utf8Size_pos c
      simp only [byteLen, List.map_cons, List.sum_cons] at h
      omega
  · intro h; subst h; rfl

theorem pad_length (s : List Char) : (pad s).length = byteLen s := by
  have := length_le_byteLen s
  simp only [pad, List.length_append, List.length_map, List.length_replicate]
  omega

theorem pad_getElem (s : List Char) (x : Nat) (hx : x < byteLen s) :
    (pad s)[x]? = some s[x]? := by
  rw [pad, List.getElem?_append]
  by_cases h : x < s.length
  · rw [if_pos (by simpa using h), List.getElem?_map, List.getElem?_eq_getElem h]
    rfl
  · have hge : s.length ≤ x := Nat.le_of_not_lt h
    rw [if_neg (by simpa using h)]
    simp only [List.length_map]
    rw [List.getElem?_replicate, if_pos (by have := length_le_byteLen s; omega)]
    rw [List.getElem?_eq_none hge]

theorem pad_filterMap (s : List Char) : (pad s).filterMap id = s := by
  simp only [pad, List.filterMap_append]
  rw [List.filterMap_map]
  have h1 : (List.filterMap (id ∘ some) s) = s := by
    simp [Function.comp]
  have h2 : (List.replicate (byteLen s - s.length) (none : Option Char)).filterMap id = [] := by
    induction (byteLen s - s.length) with
    | zero => rfl
    | succ n ih => simp [List.replicate_succ, ih]
  rw [h1, h2, List.append_nil]

theorem pad_injective {a b : List Char} (h : pad a = pad b) : a = b := by
  have := congrArg (List.filterMap id) h
  rwa [pad_filterMap, pad_filterMap] at this

theorem byteLen_of_ascii {s : List Char} (h : ∀ c ∈ s, c.utf8Size = 1) :
    byteLen s = s.length := by
  induction s with
  | nil => rfl
  | cons c rest ih =>
    simp only [byteLen, List.map_cons, List.sum_cons, List.length_cons] at ih ⊢
    rw [h c (by simp)]
    have := ih (fun d hd => h d (by simp [hd]))
    simp only [byteLen] at this
    omega

theorem pad_of_ascii {s : List Char} (h : ∀ c ∈ s, c.utf8Size = 1) :
    pad s = s.map some := by
  simp [pad, byteLen_of_ascii h]

/-! Basic facts about `lev`. -/

theorem lev_nil_left {α : Type} [DecidableEq α] (b : List α) : lev [] b = b.length := rfl

theorem lev_nil_right {α : Type} [DecidableEq α] (a : List α) : lev a [] = a.length := by
  induction a with
  | nil => rfl
  | cons x xs ih => simp only [lev, levRow, List.length_cons]; omega

theorem lev_cons_cons {α : Type} [DecidableEq α] (x y : α) (xs ys : List α) :
    lev (x :: xs) (y :: ys) =
      if x = y then lev xs ys
      else 1 + min3 (lev xs (y :: ys)) (lev (x :: xs) ys) (lev xs ys) := rfl

theorem lev_eq_zero_iff {α : Type} [DecidableEq α] (a b : List α) :
    lev a b = 0 ↔ a = b := by
  induction a generalizing b with
  | nil =>
    cases b with
    | nil => simp [lev_nil_left]
    | cons y ys => simp [lev_nil_left]
  | cons x xs ih =>
    cases b with
    | nil => simp [lev_nil_right]
    | cons y ys =>
      rw [lev_cons_cons]
      by_cases h : x = y
      · subst h
        rw [if_pos rfl, ih ys]
        simp
      · rw [if_neg h]
        constructor
        · omega
        · intro hc
          simp only [List.cons.injEq] at hc
          exact absurd hc.1 h

theorem lev_self {α : Type} [DecidableEq α] (a : List α) : lev a a = 0 :=
  (lev_eq_zero_iff a a).mpr rfl

theorem lev_symm {α : Type} [DecidableEq α] (a b : List α) : lev a b = lev b a := by
  induction a generalizing b with
  | nil => rw [lev_nil_left, lev_nil_right]
  | cons x xs ih =>
    induction b with
    | nil => rw [lev_nil_left, lev_nil_right]
    | cons y ys ihb =>
      rw [lev_cons_cons, lev_cons_cons]
      by_cases h : x = y
      · subst h
        rw [if_pos rfl, if_pos rfl, ih ys]
      · rw [if_neg h, if_neg (Ne.symm h)]
        rw [ih (y :: ys), ih ys, ihb]
        unfold min3
        omega

/-- Joint one-step Lipschitz bounds for `lev`: dropping the head of the
first argument, or consing onto the second argument, changes the distance
by at most one.  Proved together by strong induction on the total length. -/
theorem lev_aux {α : Type} [DecidableEq α] :
    ∀ N : Nat, ∀ a b : List α, a.length + b.length ≤ N →
      (∀ c, lev (c :: a) b ≤ 1 + lev a b) ∧ (∀ c, lev a b ≤ 1 + lev a (c :: b)) := by
  intro N
  induction N with
  | zero =>
    intro a b hab
    have ha : a = [] := by cases a <;> simp_all
    have hb : b = [] := by cases b <;> simp_all
    subst ha; subst hb
    constructor
    · intro c; rw [lev_nil_right, lev_nil_right]; simp
    · intro c; rw [lev_nil_left, lev_nil_left]; simp
  | succ N ihN =>
    intro a b hab
    constructor
    · intro c
      cases b with
      | nil => rw [lev_nil_right, lev_nil_right]; simp [Nat.add_comm]
      | cons y ys =>
        rw [lev_cons_cons]
        by_cases h : c = y
        · rw [if_pos h]
          have hm : a.length + ys.length ≤ N := by
            simp only [List.length_cons] at hab; omega
          exact (ihN a ys hm).2 y
        · rw [if_neg h]
          have := min3_le_left (lev a (y :: ys)) (lev (c :: a) ys) (lev a ys)
          omega
    · intro c
      cases a with
      | nil => rw [lev_nil_left, lev_nil_left]; simp; omega
      | cons x xs =>
        have hm : xs.length + b.length ≤ N := by
          simp only [List.length_cons] at hab; omega
        rw [lev_cons_cons]
        by_cases h : x = c
        · rw [if_pos h]
          exact (ihN xs b hm).1 x
        · rw [if_neg h]
          have h1 : lev (x :: xs) b ≤ 1 + lev xs b := (ihN xs b hm).1 x
          have h2 : lev xs b ≤ 1 + lev xs (c :: b) := (ihN xs b hm).2 c
          rcases min3_cases (lev xs (c :: b)) (lev (x :: xs) b) (lev xs b) with hc | hc | hc <;>
            rw [hc] <;> omega

/-- Deleting the head of the first argument changes `lev` by at most one. -/
theorem lev_cons_left_le {α : Type} [DecidableEq α] (c : α) (a b : List α) :
    lev (c :: a) b ≤ 1 + lev a b :=
  (lev_aux (a.length + b.length) a b le_rfl).1 c

/-- Inserting at the head of the second argument lowers `lev` by at most one. -/
theorem lev_le_cons_right {α : Type} [DecidableEq α] (c : α) (a b : List α) :
    lev a b ≤ 1 + lev a (c :: b) :=
  (lev_aux (a.length + b.length) a b le_rfl).2 c

/-- Deleting the head of the second argument changes `lev` by at most one. -/
theorem lev_cons_right_le {α : Type} [DecidableEq α] (c : α) (a b : List α) :
    lev a (c :: b) ≤ 1 + lev a b := by
  rw [lev_symm a (c :: b), lev_symm a b]
  exact lev_cons_left_le c b a

/-- Inserting at the head of the first argument lowers `lev` by at most one. -/
theorem lev_le_cons_left {α : Type} [DecidableEq α] (c : α) (a b : List α) :
    lev a b ≤ 1 + lev (c :: a) b := by
  rw [lev_symm a b, lev_symm (c :: a) b]
  exact lev_le_cons_right c b a

/-- Substituting the head of the second argument changes `lev` by at most one. -/
theorem lev_subst_right_le {α : Type} [DecidableEq α] (c d : α) (l : List α) :
    ∀ a : List α, lev a (d :: l) ≤ 1 + lev a (c :: l) := by
  intro a
  induction a with
  | nil => rw [lev_nil_left, lev_nil_left]; simp
  | cons x xs ih =>
    rw [lev_cons_cons, lev_cons_cons]
    by_cases hd : x = d <;> by_cases hc : x = c
    · rw [if_pos hd, if_pos hc]; omega
    · rw [if_pos hd, if_neg hc]
      have h1 : lev xs l ≤ 1 + lev xs (c :: l) := lev_le_cons_right c xs l
      have h2 : lev xs l ≤ 1 + lev (x :: xs) l := lev_le_cons_left x xs l
      rcases min3_cases (lev xs (c :: l)) (lev (x :: xs) l) (lev xs l) with h | h | h <;>
        rw [h] <;> omega
    · rw [if_neg hd, if_pos hc]
      have := min3_le_right (lev xs (d :: l)) (lev (x :: xs) l) (lev xs l)
      omega
    · rw [if_neg hd, if_neg hc]
      have h1 : lev xs (d :: l) ≤ 1 + lev xs (c :: l) := ih
      have hA := min3_le_left (lev xs (d :: l)) (lev (x :: xs) l) (lev xs l)
      have hB := min3_le_middle (lev xs (d :: l)) (lev (x :: xs) l) (lev xs l)
      have hC := min3_le_right (lev xs (d :: l)) (lev (x :: xs) l) (lev xs l)
      rcases min3_cases (lev xs (c :: l)) (lev (x :: xs) l) (lev xs l) with h | h | h <;>
        rw [h] <;> omega

/-- Any single edit changes the length of a list by at most one. -/
theorem editStep_length {α : Type} {s t : List α} (h : EditStep s t) :
    t.length ≤ s.length + 1 := by
  induction h with
  | insert c l => simp
  | delete c l => simp; omega
  | subst c d l hcd => simp
  | cons c h ih => simp only [List.length_cons]; omega

/-- A single edit is reversible. -/
theorem editStep_symm {α : Type} {s t : List α} (h : EditStep s t) : EditStep t s := by
  induction h with
  | insert c l => exact EditStep.delete c l
  | delete c l => exact EditStep.insert c l
  | subst c d l hcd => exact EditStep.subst d c l (Ne.symm hcd)
  | cons c h ih => exact EditStep.cons c ih

/-- One edit on the second argument changes `lev` by at most one. -/
theorem lev_editStep_le {α : Type} [DecidableEq α] {s t : List α} (h : EditStep s t) :
    ∀ a : List α, lev a t ≤ 1 + lev a s := by
  induction h with
  | insert c l => exact fun a => lev_cons_right_le c a l
  | delete c l => exact fun a => lev_le_cons_right c a l
  | subst c d l hcd => exact fun a => lev_subst_right_le c d l a
  | @cons c l l' h ih =>
    intro a
    induction a with
    | nil =>
      rw [lev_nil_left, lev_nil_left]
      have := editStep_length h
      simp only [List.length_cons]
      omega
    | cons x xs iha =>
      rw [lev_cons_cons, lev_cons_cons]
      by_cases hx : x = c
      · rw [if_pos hx, if_pos hx]
        exact ih xs
      · rw [if_neg hx, if_neg hx]
        have h1 : lev xs (c :: l') ≤ 1 + lev xs (c :: l) := iha
        have h2 : lev (x :: xs) l' ≤ 1 + lev (x :: xs) l := ih (x :: xs)
        have h3 : lev xs l' ≤ 1 + lev xs l := ih xs
        have hA := min3_le_left (lev xs (c :: l')) (lev (x :: xs) l') (lev xs l')
        have hB := min3_le_middle (lev xs (c :: l')) (lev (x :: xs) l') (lev xs l')
        have hC := min3_le_right (lev xs (c :: l')) (lev (x :: xs) l') (lev xs l')
        rcases min3_cases (lev xs (c :: l)) (lev (x :: xs) l) (lev xs l) with hm | hm | hm <;>
          rw [hm] <;> omega

/-! Chains of edits: closure properties. -/

theorem editChain_cons {α : Type} (c : α) {n : Nat} {l l' : List α}
    (h : EditChain n l l') : EditChain n (c :: l) (c :: l') := by
  induction h with
  | nil l => exact EditChain.nil (c :: l)
  | step e _ ih => exact EditChain.step (EditStep.cons c e) ih

theorem editChain_snoc {α : Type} {n : Nat} {l l' l'' : List α}
    (h : EditChain n l l') (e : EditStep l' l'') : EditChain (n + 1) l l'' := by
  induction h with
  | nil l => exact EditChain.step e (EditChain.nil _)
  | step e' _ ih => exact EditChain.step e' (ih e)

theorem editChain_append {α : Type} {m n : Nat} {a b c : List α}
    (h₁ : EditChain m a b) (h₂ : EditChain n b c) : EditChain (m + n) a c := by
  induction h₁ with
  | nil l => simpa using h₂
  | step e _ ih =>
    rw [Nat.succ_add]
    exact EditChain.step e (ih h₂)

theorem editChain_nil_to {α : Type} (b : List α) : EditChain b.length [] b := by
  induction b with
  | nil => exact EditChain.nil []
  | cons y ys ih =>
    exact EditChain.step (EditStep.insert y []) (editChain_cons y ih)

theorem editChain_to_nil {α : Type} (a : List α) : EditChain a.length a [] := by
  induction a with
  | nil => exact EditChain.nil []
  | cons x xs ih =>
    exact EditChain.step (EditStep.delete x xs) ih

/-- Upper bound half of the correctness of `lev`: there is a chain of
exactly `lev a b` single-character edits from `a` to `b`. -/
theorem editChain_lev {α : Type} [DecidableEq α] (a b : List α) :
    EditChain (lev a b) a b := by
  induction a generalizing b with
  | nil => rw [lev_nil_left]; exact editChain_nil_to b
  | cons x xs ih =>
    induction b with
    | nil => rw [lev_nil_right]; exact editChain_to_nil (x :: xs)
    | cons y ys ihb =>
      rw [lev_cons_cons]
      by_cases h : x = y
      · rw [if_pos h]; subst h
        exact editChain_cons x (ih ys)
      · rw [if_neg h]
        rcases min3_cases (lev xs (y :: ys)) (lev (x :: xs) ys) (lev xs ys) with hm | hm | hm <;>
          rw [hm, Nat.add_comm]
        · exact EditChain.step (EditStep.delete x xs) (ih (y :: ys))
        · exact editChain_snoc ihb (EditStep.insert y ys)
        · exact EditChain.step (EditStep.subst x y xs h) (editChain_cons y (ih ys))

/-- Lower bound half of the correctness of `lev`: no chain of edits from
`a` to `b` is shorter than `lev a b`. -/
theorem lev_le_editChain {α : Type} [DecidableEq α] {m : Nat} {a b : List α}
    (h : EditChain m a b) : lev a b ≤ m := by
  induction h with
  | nil l => rw [lev_self]
  | @step n l l' l'' e _ ih =>
    have h1 : lev l'' l ≤ 1 + lev l'' l' := lev_editStep_le (editStep_symm e) l''
    rw [lev_symm l l'']
    rw [lev_symm l' l''] at ih
    omega

/-- Full correctness of the reference function: `lev a b` is the minimum
number of single-character edits transforming `a` into `b`. -/
theorem isMinEdits_lev {α : Type} [DecidableEq α] (a b : List α) :
    IsMinEdits a b (lev a b) :=
  ⟨editChain_lev a b, fun _ h => lev_le_editChain h⟩

/-- The minimum edit count is unique, so any witness of `IsMinEdits`
equals `lev`. -/
theorem isMinEdits_eq_lev {α : Type} [DecidableEq α] {a b : List α} {n : Nat}
    (h : IsMinEdits a b n) : n = lev a b :=
  Nat.le_antisymm (h.2 _ (editChain_lev a b)) (lev_le_editChain h.1)

/-- Triangle inequality for `lev`, by concatenating edit chains. -/
theorem lev_triangle {α : Type} [DecidableEq α] (a b c : List α) :
    lev a c ≤ lev a b + lev b c :=
  lev_le_editChain (editChain_append (editChain_lev a b) (editChain_lev b c))

/-! Reversal invariance of `lev`, through the edit-chain characterisation. -/

theorem editStep_append_single {α : Type} {u v : List α} (c : α) (h : EditStep u v) :
    EditStep (u ++ [c]) (v ++ [c]) := by
  induction h with
  | insert d l => exact EditStep.insert d (l ++ [c])
  | delete d l => exact EditStep.delete d (l ++ [c])
  | subst d e l hde => exact EditStep.subst d e (l ++ [c]) hde
  | cons d _ ih => exact EditStep.cons d ih

theorem editStep_insert_last {α : Type} (c : α) (l : List α) :
    EditStep l (l ++ [c]) := by
  induction l with
  | nil => exact EditStep.insert c []
  | cons x xs ih => exact EditStep.cons x ih

theorem editStep_subst_last {α : Type} (c d : α) (l : List α) (h : c ≠ d) :
    EditStep (l ++ [c]) (l ++ [d]) := by
  induction l with
  | nil => exact EditStep.subst c d [] h
  | cons x xs ih => exact EditStep.cons x ih

theorem editStep_reverse {α : Type} {s t : List α} (h : EditStep s t) :
    EditStep s.reverse t.reverse := by
  induction h with
  | insert c l => simpa using editStep_insert_last c l.reverse
  | delete c l => simpa using editStep_symm (editStep_insert_last c l.reverse)
  | subst c d l hcd => simpa using editStep_subst_last c d l.reverse hcd
  | cons c _ ih => simpa using editStep_append_single c ih

theorem editChain_reverse {α : Type} {n : Nat} {a b : List α}
    (h : EditChain n a b) : EditChain n a.reverse b.reverse := by
  induction h with
  | nil l => exact EditChain.nil l.reverse
  | step e _ ih => exact EditChain.step (editStep_reverse e) ih

/-- The Levenshtein distance is invariant under reversing both arguments. -/
theorem lev_reverse {α : Type} [DecidableEq α] (a b : List α) :
    lev a.reverse b.reverse = lev a b := by
  apply Nat.le_antisymm
  · exact lev_le_editChain (editChain_reverse (editChain_lev a b))
  · have h := editChain_reverse (editChain_lev a.reverse b.reverse)
    rw [List.reverse_reverse, List.reverse_reverse] at h
    exact lev_le_editChain h

/-- The Levenshtein distance never exceeds the longer length. -/
theorem lev_le_max {α : Type} [DecidableEq α] (a b : List α) :
    lev a b ≤ max a.length b.length := by
  induction a generalizing b with
  | nil => rw [lev_nil_left]; omega
  | cons x xs ih =>
    induction b with
    | nil => rw [lev_nil_right]; omega
    | cons y ys ihb =>
      rw [lev_cons_cons]
      by_cases h : x = y
      · rw [if_pos h]
        have := ih ys
        simp only [List.length_cons]
        omega
      · rw [if_neg h]
        have h1 := ih ys
        have h2 := min3_le_right (lev xs (y :: ys)) (lev (x :: xs) ys) (lev xs ys)
        simp only [List.length_cons]
        omega

/-- When the two sequences have no character in common (disjoint
alphabets), the Levenshtein distance is exactly the longer length. -/
theorem lev_disjoint {α : Type} [DecidableEq α] (a b : List α)
    (h : ∀ c ∈ a, c ∉ b) : lev a b = max a.length b.length := by
  induction a generalizing b with
  | nil => rw [lev_nil_left]; simp
  | cons x xs ih =>
    induction b with
    | nil => rw [lev_nil_right]; simp
    | cons y ys ihb =>
      have hxy : x ≠ y := by
        intro hc
        exact h x (by simp) (by simp [hc])
      rw [lev_cons_cons, if_neg hxy]
      have hA : lev xs (y :: ys) = max xs.length (ys.length + 1) := by
        have := ih (y :: ys) (fun c hc => h c (by simp [hc]))
        simpa using this
      have hB : lev (x :: xs) ys = max (xs.length + 1) ys.length := by
        have := ihb (fun c hc hc' => h c hc (by simp [hc']))
        simpa using this
      have hC : lev xs ys = max xs.length ys.length := by
        have := ih ys (fun c hc hc' => h c (by simp [hc]) (by simp [hc']))
        simpa using this
      rw [hA, hB, hC]
      simp only [List.length_cons]
      unfold min3
      omega

/-- If some aligned position carries the same character in both sequences,
the distance is strictly below the longer length. -/
theorem lev_lt_of_aligned {α : Type} [DecidableEq α] (i : Nat) :
    ∀ a b : List α, i < a.length → i < b.length → a[i]? = b[i]? →
      lev a b + 1 ≤ max a.length b.length := by
  induction i with
  | zero =>
    intro a b ha hb hab
    match a, b with
    | x :: xs, y :: ys =>
      simp only [List.getElem?_cons_zero, Option.some.injEq] at hab
      rw [lev_cons_cons, if_pos hab]
      have := lev_le_max xs ys
      simp only [List.length_cons]
      omega
  | succ i ih =>
    intro a b ha hb hab
    match a, b with
    | x :: xs, y :: ys =>
      simp only [List.length_cons, Nat.succ_lt_succ_iff] at ha hb
      simp only [List.getElem?_cons_succ] at hab
      have hrec := ih xs ys ha hb hab
      rw [lev_cons_cons]
      by_cases h : x = y
      · rw [if_pos h]
        simp only [List.length_cons]
        omega
      · rw [if_neg h]
        have h2 := min3_le_right (lev xs (y :: ys)) (lev (x :: xs) ys) (lev xs ys)
        simp only [List.length_cons]
        omega

/-- Mapping both arguments through `some` (or any injective constructor)
leaves the distance unchanged. -/
theorem lev_map_some {α : Type} [DecidableEq α] (a b : List α) :
    lev (a.map some) (b.map some) = lev a b := by
  induction a generalizing b with
  | nil => rw [List.map_nil, lev_nil_left, lev_nil_left, List.length_map]
  | cons x xs ih =>
    induction b with
    | nil => rw [List.map_nil, lev_nil_right, lev_nil_right, List.length_map]
    | cons y ys ihb =>
      rw [List.map_cons, List.map_cons, lev_cons_cons, lev_cons_cons]
      by_cases h : x = y
      · rw [if_pos (by rw [h]), if_pos h]
        exact ih ys
      · rw [if_neg (by simpa using h), if_neg h]
        rw [← List.map_cons some y ys, ← List.map_cons some x xs]
        rw [ih (y :: ys), ihb, ih ys]

/-! The dynamic-programming cell values: distances between prefixes. -/

/-- The Levenshtein distance between the length-`x` prefix of `A` and the
length-`y` prefix of `B`.  Written through reversal so that the head
recursion of `lev` peels off the *last* elements of the prefixes, matching
the direction in which the dynamic programming extends them. -/
def levP {α : Type} [DecidableEq α] (A B : List α) (x y : Nat) : Nat :=
  lev ((A.take x).reverse) ((B.take y).reverse)

theorem levP_zero_left {α : Type} [DecidableEq α] (A B : List α) (y : Nat)
    (hy : y ≤ B.length) : levP A B 0 y = y := by
  unfold levP
  rw [List.take_zero, List.reverse_nil, lev_nil_left]
  simp [List.length_take]
  omega

theorem levP_zero_right {α : Type} [DecidableEq α] (A B : List α) (x : Nat)
    (hx : x ≤ A.length) : levP A B x 0 = x := by
  unfold levP
  rw [List.take_zero, List.reverse_nil, lev_nil_right]
  simp [List.length_take]
  omega

theorem levP_succ_succ {α : Type} [DecidableEq α] (A B : List α) (x y : Nat)
    (hx : x < A.length) (hy : y < B.length) :
    levP A B (x + 1) (y + 1) =
      if A[x]? = B[y]? then levP A B x y
      else 1 + min3 (levP A B x y) (levP A B x (y + 1)) (levP A B (x + 1) y) := by
  have ha : (A.take (x + 1)).reverse = A[x] :: (A.take x).reverse := by
    rw [List.take_succ, List.getElem?_eq_getElem hx]
    simp
  have hb : (B.take (y + 1)).reverse = B[y] :: (B.take y).reverse := by
    rw [List.take_succ, List.getElem?_eq_getElem hy]
    simp
  rw [List.getElem?_eq_getElem hx, List.getElem?_eq_getElem hy]
  unfold levP
  rw [ha, hb, lev_cons_cons]
  simp only [Option.some.injEq]
  by_cases h : A[x] = B[y]
  · rw [if_pos h, if_pos h]
  · rw [if_neg h, if_neg h, ← hb, ← ha, min3_rotate]

/-! Running the embedded loops. -/

theorem vset_eq_some (l : List Nat) (i v : Nat) (h : i < l.length) :
    vset l i v = some (l.set i v) := by
  simp [vset, h]

theorem range_set_fold (m : Nat) (l : List Nat) (hm : m ≤ l.length) :
    (List.range m).foldlM (fun r i => vset r i i) l = some (List.range m ++ l.drop m) := by
  induction m with
  | zero => simp
  | succ m ih =>
    rw [List.range_succ, List.foldlM_append, ih (by omega)]
    have hlen : (List.range m ++ l.drop m).length = l.length := by
      simp [List.length_range, List.length_drop]
      omega
    have hd : l.drop m = l[m] :: l.drop (m + 1) :=
      List.drop_eq_getElem_cons (by omega)
    have hvs : vset (List.range m ++ l.drop m) m m =
        some (List.range (m + 1) ++ l.drop (m + 1)) := by
      rw [vset_eq_some _ _ _ (by omega)]
      rw [List.set_append_right m m (by simp [List.length_range])]
      rw [List.length_range, Nat.sub_self, hd, List.set_cons_zero]
      simp [List.range_succ]
    simp only [Option.bind_eq_bind, Option.some_bind]
    rw [List.foldlM_cons, hvs]
    simp [List.range_succ, List.append_assoc]

theorem initRow_eq (a : List Char) : initRow a = some (List.range (byteLen a + 1)) := by
  unfold initRow
  rw [range_set_fold _ _ (by simp)]
  have hdrop := List.drop_length (List.replicate (byteLen a + 1) (0:Nat))
  rw [List.length_replicate] at hdrop
  rw [hdrop]
  simp

/-- One inner step of `single_row_distance` advances the in-place row
invariant: entering column `x` of row `y`, the scratch scalar holds the
diagonal value `levP x y`, positions `≤ x` hold row `y + 1` values and
positions `> x` still hold row `y` values; the step writes cell `x + 1`
and shifts the scratch scalar to the next diagonal value. -/
theorem srStep_invariant (a b : List Char) (y x : Nat)
    (hy : y < byteLen b) (hx : x < byteLen a)
    (last : Nat) (row : List Nat)
    (hlen : row.length = byteLen a + 1)
    (hlast : last = levP (pad a) (pad b) x y)
    (hrow : ∀ i, i ≤ byteLen a →
      row[i]? = some (if i ≤ x then levP (pad a) (pad b) i (y + 1)
                      else levP (pad a) (pad b) i y)) :
    srStep a b y (last, row) x =
      some (levP (pad a) (pad b) (x + 1) y,
            row.set (x + 1) (levP (pad a) (pad b) (x + 1) (y + 1))) := by
  have hpa : x < (pad a).length := by rw [pad_length]; exact hx
  have hpb : y < (pad b).length := by rw [pad_length]; exact hy
  have hx1 : row[x+1]? = some (levP (pad a) (pad b) (x + 1) y) := by
    have h := hrow (x + 1) (by omega)
    rwa [if_neg (by omega)] at h
  have hx0 : row[x]? = some (levP (pad a) (pad b) x (y + 1)) := by
    have h := hrow x (by omega)
    rwa [if_pos (by omega)] at h
  have hrec := levP_succ_succ (pad a) (pad b) x y hpa hpb
  rw [pad_getElem a x hx, pad_getElem b y hy] at hrec
  simp only [Option.some.injEq] at hrec
  have hset : vset row (x + 1) (levP (pad a) (pad b) (x + 1) (y + 1)) =
      some (row.set (x + 1) (levP (pad a) (pad b) (x + 1) (y + 1))) :=
    vset_eq_some _ _ _ (by omega)
  simp only [srStep]
  by_cases h : a[x]? = b[y]?
  · rw [if_pos h] at hrec
    rw [if_pos h, hx1]
    simp only [Option.bind_eq_bind, Option.some_bind]
    rw [hlast, ← hrec, hset]
    rfl
  · rw [if_neg h] at hrec
    rw [if_neg h, hx1, hx0]
    simp only [Option.bind_eq_bind, Option.some_bind]
    rw [hlast, ← hrec, hset]
    rfl

/-- Running the first `k` inner iterations of row `y` from the state that
`srRow` sets up (scratch scalar `levP 0 y`, cell `0` freshly set to `y+1`)
updates exactly the first `k + 1` cells to row `y + 1` values and leaves
the scratch scalar holding `levP k y`. -/
theorem srStep_fold (a b : List Char) (y : Nat) (hy : y < byteLen b)
    (k : Nat) (hk : k ≤ byteLen a) (row : List Nat)
    (hlen : row.length = byteLen a + 1)
    (hrow : ∀ i, i ≤ byteLen a →
      row[i]? = some (if i ≤ 0 then levP (pad a) (pad b) i (y + 1)
                      else levP (pad a) (pad b) i y)) :
    ∃ row' : List Nat,
      (List.range k).foldlM (srStep a b y) (levP (pad a) (pad b) 0 y, row) =
        some (levP (pad a) (pad b) k y, row') ∧
      row'.length = byteLen a + 1 ∧
      (∀ i, i ≤ byteLen a →
        row'[i]? = some (if i ≤ k then levP (pad a) (pad b) i (y + 1)
                         else levP (pad a) (pad b) i y)) := by
  induction k with
  | zero =>
    exact ⟨row, by simp, hlen, hrow⟩
  | succ k ih =>
    obtain ⟨row', hfold, hlen', hrow'⟩ := ih (by omega)
    have hstep := srStep_invariant a b y k hy (by omega) (levP (pad a) (pad b) k y) row'
      hlen' rfl hrow'
    refine ⟨row'.set (k + 1) (levP (pad a) (pad b) (k + 1) (y + 1)), ?_, ?_, ?_⟩
    · rw [List.range_succ, List.foldlM_append, hfold]
      simp only [Option.bind_eq_bind, Option.some_bind]
      rw [List.foldlM_cons, hstep]
      simp
    · simp [hlen']
    · intro i hi
      by_cases hik : i = k + 1
      · subst hik
        rw [List.getElem?_set_self (by omega)]
        rw [if_pos (by omega)]
      · rw [List.getElem?_set_ne (fun hc => hik hc.symm)]
        rw [hrow' i hi]
        by_cases hle : i ≤ k
        · rw [if_pos hle, if_pos (by omega)]
        · rw [if_neg hle, if_neg (by omega)]

/-- One outer iteration of `single_row_distance`: if the row holds the
distances for row `y`, `srRow` succeeds and afterwards the row holds the
distances for row `y + 1`. -/
theorem srRow_invariant (a b : List Char) (y : Nat) (hy : y < byteLen b)
    (l0 : Nat) (row : List Nat)
    (hlen : row.length = byteLen a + 1)
    (hrow : ∀ i, i ≤ byteLen a → row[i]? = some (levP (pad a) (pad b) i y)) :
    ∃ row' : List Nat,
      srRow a b (l0, row) y = some (levP (pad a) (pad b) (byteLen a) y, row') ∧
      row'.length = byteLen a + 1 ∧
      ∀ i, i ≤ byteLen a → row'[i]? = some (levP (pad a) (pad b) i (y + 1)) := by
  have h0 : row[0]? = some (levP (pad a) (pad b) 0 y) := hrow 0 (by omega)
  have hset : vset row 0 (y + 1) = some (row.set 0 (y + 1)) :=
    vset_eq_some _ _ _ (by omega)
  have hrow1 : ∀ i, i ≤ byteLen a →
      (row.set 0 (y + 1))[i]? =
        some (if i ≤ 0 then levP (pad a) (pad b) i (y + 1)
              else levP (pad a) (pad b) i y) := by
    intro i hi
    by_cases hi0 : i = 0
    · subst hi0
      rw [List.getElem?_set_self (by omega), if_pos (by omega)]
      rw [levP_zero_left _ _ _ (by rw [pad_length]; omega)]
    · rw [List.getElem?_set_ne (fun hc => hi0 hc.symm), if_neg (by omega)]
      exact hrow i hi
  obtain ⟨row', hfold, hlen', hrow'⟩ :=
    srStep_fold a b y hy (byteLen a) le_rfl (row.set 0 (y + 1)) (by simp [hlen]) hrow1
  refine ⟨row', ?_, hlen', ?_⟩
  · simp only [srRow]
    rw [h0, hset]
    simp only [Option.bind_eq_bind, Option.some_bind]
    exact hfold
  · intro i hi
    have h := hrow' i hi
    rwa [if_pos hi] at h

/-- After the first `y` outer iterations the row holds the distances
between all prefixes of (the padded) `a` and the length-`y` prefix of
(the padded) `b`. -/
theorem srRow_fold (a b : List Char) (y : Nat) (hy : y ≤ byteLen b) :
    ∃ st : Nat × List Nat,
      (List.range y).foldlM (srRow a b) (0, List.range (byteLen a + 1)) = some st ∧
      st.2.length = byteLen a + 1 ∧
      ∀ i, i ≤ byteLen a → st.2[i]? = some (levP (pad a) (pad b) i y) := by
  induction y with
  | zero =>
    refine ⟨(0, List.range (byteLen a + 1)), by simp, by simp, ?_⟩
    intro i hi
    rw [List.getElem?_range (by omega)]
    rw [levP_zero_right _ _ _ (by rw [pad_length]; omega)]
  | succ y ih =>
    obtain ⟨st, hfold, hlen, hrow⟩ := ih (by omega)
    obtain ⟨l0, row⟩ := st
    obtain ⟨row', hrowstep, hlen', hrow'⟩ :=
      srRow_invariant a b y (by omega) l0 row hlen hrow
    refine ⟨(levP (pad a) (pad b) (byteLen a) y, row'), ?_, hlen', hrow'⟩
    nth_rewrite 2 [List.range_succ]
    rw [List.foldlM_append, hfold]
    simp only [Option.bind_eq_bind, Option.some_bind]
    rw [List.foldlM_cons, hrowstep]
    simp

/-- Correctness of the embedded `single_row_distance`: it never panics and
returns the Levenshtein distance between the byte-padded character
sequences. -/
theorem single_row_eq (a b : List Char) :
    single_row_distance a b = some (lev (pad a) (pad b)) := by
  by_cases ha : byteLen a = 0
  · have ha' : a = [] := (byteLen_eq_zero_iff a).mp ha
    subst ha'
    have hpa : pad [] = [] := rfl
    rw [single_row_distance, if_pos ha, hpa, lev_nil_left, pad_length]
  · by_cases hb : byteLen b = 0
    · have hb' : b = [] := (byteLen_eq_zero_iff b).mp hb
      subst hb'
      have hpb : pad [] = [] := rfl
      rw [single_row_distance, if_neg ha, if_pos hb, hpb, lev_nil_right, pad_length]
    · obtain ⟨st, hfold, hlen, hrow⟩ := srRow_fold a b (byteLen b) le_rfl
      rw [single_row_distance, if_neg ha, if_neg hb, initRow_eq]
      simp only [Option.bind_eq_bind, Option.some_bind]
      rw [hfold]
      simp only [Option.bind_eq_bind, Option.some_bind]
      rw [hrow (byteLen a) le_rfl]
      congr 1
      unfold levP
      rw [show (pad a).take (byteLen a) = pad a from by
        rw [← pad_length a]; exact List.take_length _]
      rw [show (pad b).take (byteLen b) = pad b from by
        rw [← pad_length b]; exact List.take_length _]
      rw [lev_reverse]

/-- Correctness of the embedded `distance` entry point. -/
theorem distance_eq (a b : List Char) :
    distance a b = some (lev (pad a) (pad b)) :=
  single_row_eq a b

/-- For inputs whose characters are all one UTF-8 byte, the byte padding
is trivial and `distance` computes the textbook Levenshtein distance of
the character sequences themselves. -/
theorem distance_ascii {a b : List Char}
    (ha : ∀ c ∈ a, c.utf8Size = 1) (hb : ∀ c ∈ b, c.utf8Size = 1) :
    distance a b = some (lev a b) := by
  rw [distance_eq, pad_of_ascii ha, pad_of_ascii hb, lev_map_some]

/-- For single-byte inputs the dynamic-programming cell `levP x y` over the
padded sequences is the distance between the actual character prefixes. -/
theorem levP_pad_ascii {a b : List Char}
    (ha : ∀ c ∈ a, c.utf8Size = 1) (hb : ∀ c ∈ b, c.utf8Size = 1) (x y : Nat) :
    levP (pad a) (pad b) x y = lev (a.take x) (b.take y) := by
  unfold levP
  rw [pad_of_ascii ha, pad_of_ascii hb, ← List.map_take, ← List.map_take,
    ← List.map_reverse, ← List.map_reverse, lev_map_some, lev_reverse]

/-! ## The claims -/

set_option maxRecDepth 100000

/-- C1, counterexample: on the multi-byte input `a = "é"`, `b = "a"` the
function returns 2, but 2 is not the minimum number of single-character
edits transforming `a` into `b` (one substitution suffices), so the claim
as stated fails. -/
theorem C1_counterexample :
    distance ['é'] ['a'] = some 2 ∧ ¬ IsMinEdits ['é'] ['a'] 2 := by
  refine ⟨rfl, ?_⟩
  rintro ⟨-, hmin⟩
  have hch : EditChain 1 ['é'] ['a'] :=
    EditChain.step (EditStep.subst 'é' 'a' [] (by decide)) (EditChain.nil _)
  have := hmin 1 hch
  omega

/-- C1, amended: for every pair of character sequences consisting of
single-byte (one-UTF-8-byte) characters, `distance` returns the minimum
number of single-character edits (insert, delete, substitute) required to
transform `a` into `b`. -/
theorem C1_min_edits (a b : List Char)
    (ha : ∀ c ∈ a, c.utf8Size = 1) (hb : ∀ c ∈ b, c.utf8Size = 1) :
    ∃ n, distance a b = some n ∧ IsMinEdits a b n :=
  ⟨lev a b, distance_ascii ha hb, isMinEdits_lev a b⟩

/-- C1, witness: the amended theorem applied at `a = "ab"`, `b = "b"`. -/
theorem C1_witness :
    (∀ c ∈ (['a', 'b'] : List Char), c.utf8Size = 1) ∧
    (∀ c ∈ (['b'] : List Char), c.utf8Size = 1) ∧
    (∃ n, distance ['a', 'b'] ['b'] = some n ∧ IsMinEdits ['a', 'b'] ['b'] n) :=
  ⟨by decide, by decide, C1_min_edits ['a', 'b'] ['b'] (by decide) (by decide)⟩

/-- C2: `distance a b` is `0` exactly when `a` and `b` are equal
character-for-character (this holds for arbitrary Unicode inputs). -/
theorem C2_zero_iff_eq (a b : List Char) : distance a b = some 0 ↔ a = b := by
  rw [distance_eq]
  constructor
  · intro h
    have h0 : lev (pad a) (pad b) = 0 := by simpa using h
    exact pad_injective ((lev_eq_zero_iff _ _).mp h0)
  · intro h
    subst h
    rw [lev_self]

/-- C3: `distance` is symmetric in its two arguments, even though the
loop structure of the implementation is not. -/
theorem C3_symm (a b : List Char) : distance a b = distance b a := by
  rw [distance_eq, distance_eq, lev_symm]

/-- C4, counterexample: with `len` counting characters the empty-input
base case fails on multi-byte input: `distance "" "é"` is 2 (the UTF-8
byte length of `"é"`), not the character count 1. -/
theorem C4_counterexample :
    distance [] ['é'] = some 2 ∧ (['é'] : List Char).length = 1 ∧
    distance [] ['é'] ≠ some ((['é'] : List Char).length) := by
  refine ⟨rfl, rfl, ?_⟩
  decide

/-- C4, amended: `distance "" b` is the UTF-8 *byte* length of `b`, and
`distance a ""` the byte length of `a` (the two coincide with character
counts exactly for single-byte inputs). -/
theorem C4_empty_byteLen (s : List Char) :
    distance [] s = some (byteLen s) ∧ distance s [] = some (byteLen s) := by
  have hp : pad ([] : List Char) = [] := rfl
  constructor
  · rw [distance_eq, hp, lev_nil_left, pad_length]
  · rw [distance_eq, hp, lev_nil_right, pad_length]

/-- C5, counterexample: three failures of the claim as stated.  First, on
multi-byte input `("é", "a")` the result 2 exceeds `max(len a, len b) = 1`
with `len` counting characters.  Second, `("abc", "cab")` share no
character at any aligned position yet the result 2 is not
`max(len a, len b) = 3`, refuting the "exactly when no aligned characters
in common" direction.  Third, `("ab", "bc")` do share the character `b`,
yet the result does equal `max(len a, len b) = 2`, refuting the converse
reading. -/
theorem C5_counterexample :
    (distance ['é'] ['a'] = some 2 ∧
      max (['é'] : List Char).length (['a'] : List Char).length = 1) ∧
    (distance ['a', 'b', 'c'] ['c', 'a', 'b'] = some 2 ∧
      (∀ i, i < 3 → (['a', 'b', 'c'] : List Char)[i]? ≠ (['c', 'a', 'b'] : List Char)[i]?) ∧
      max (['a', 'b', 'c'] : List Char).length (['c', 'a', 'b'] : List Char).length = 3) ∧
    (distance ['a', 'b'] ['b', 'c'] = some 2 ∧
      'b' ∈ (['a', 'b'] : List Char) ∧ 'b' ∈ (['b', 'c'] : List Char) ∧
      max (['a', 'b'] : List Char).length (['b', 'c'] : List Char).length = 2) := by
  exact ⟨⟨rfl, rfl⟩, ⟨rfl, by decide, rfl⟩, ⟨rfl, by decide, by decide, rfl⟩⟩

/-- C5, amended: for single-byte inputs, `0 ≤ distance a b ≤
max(len a, len b)`; the upper bound is attained whenever the two sequences
share no character at all (disjoint alphabets); and if the bound is
attained then no aligned position carries the same character in both. -/
theorem C5_bounds (a b : List Char)
    (ha : ∀ c ∈ a, c.utf8Size = 1) (hb : ∀ c ∈ b, c.utf8Size = 1)
    (d : Nat) (hd : distance a b = some d) :
    d ≤ max a.length b.length ∧
    ((∀ c ∈ a, c ∉ b) → d = max a.length b.length) ∧
    (d = max a.length b.length →
      ∀ i, i < a.length → i < b.length → a[i]? ≠ b[i]?) := by
  rw [distance_ascii ha hb] at hd
  have hdl : d = lev a b := by simpa using hd.symm
  subst hdl
  refine ⟨lev_le_max a b, fun hdisj => lev_disjoint a b hdisj, ?_⟩
  intro hmax i hia hib heq
  have := lev_lt_of_aligned i a b hia hib heq
  omega

/-- C5, witness: the amended theorem applied at the disjoint-alphabet pair
`a = "ab"`, `b = "c"`, where the distance is `2 = max(2, 1)`. -/
theorem C5_witness :
    (∀ c ∈ (['a', 'b'] : List Char), c.utf8Size = 1) ∧
    (∀ c ∈ (['c'] : List Char), c.utf8Size = 1) ∧
    distance ['a', 'b'] ['c'] = some 2 ∧
    (2 ≤ max (['a', 'b'] : List Char).length (['c'] : List Char).length ∧
      ((∀ c ∈ (['a', 'b'] : List Char), c ∉ (['c'] : List Char)) →
        2 = max (['a', 'b'] : List Char).length (['c'] : List Char).length) ∧
      (2 = max (['a', 'b'] : List Char).length (['c'] : List Char).length →
        ∀ i, i < (['a', 'b'] : List Char).length → i < (['c'] : List Char).length →
          (['a', 'b'] : List Char)[i]? ≠ (['c'] : List Char)[i]?)) :=
  ⟨by decide, by decide, rfl, C5_bounds ['a', 'b'] ['c'] (by decide) (by decide) 2 rfl⟩

/-- C6: the triangle inequality holds for `distance` on arbitrary inputs
(multi-byte included, since the middle string is padded the same way on
both sides). -/
theorem C6_triangle (a b c : List Char) (dab dbc dac : Nat)
    (h1 : distance a b = some dab) (h2 : distance b c = some dbc)
    (h3 : distance a c = some dac) : dac ≤ dab + dbc := by
  rw [distance_eq] at h1 h2 h3
  simp only [Option.some.injEq] at h1 h2 h3
  subst h1
  subst h2
  subst h3
  exact lev_triangle (pad a) (pad b) (pad c)

/-- C6, witness: the triangle inequality instantiated at
`("a", "b", "c")`. -/
theorem C6_witness :
    distance ['a'] ['b'] = some 1 ∧ distance ['b'] ['c'] = some 1 ∧
    distance ['a'] ['c'] = some 1 ∧ 1 ≤ 1 + 1 :=
  ⟨rfl, rfl, rfl, C6_triangle ['a'] ['b'] ['c'] 1 1 1 rfl rfl rfl⟩

/-- C7: `distance` is total: on any two finite character sequences,
including empty ones and ones with arbitrary Unicode scalar values, no
indexing operation panics and a defined result is produced (`none` in the
embedding marks exactly the executions on which Rust would panic). -/
theorem C7_total (a b : List Char) : ∃ n : Nat, distance a b = some n :=
  ⟨lev (pad a) (pad b), distance_eq a b⟩

/-- C8: on every test case of the reference suite, the naive, full-matrix,
two-row and single-row formulations agree, and return the expected
distance. -/
theorem C8_test_suite :
    (naive_distance "fast".toList "past".toList = some 1 ∧
      matrix_distance "fast".toList "past".toList = some 1 ∧
      double_row_distance "fast".toList "past".toList = some 1 ∧
      single_row_distance "fast".toList "past".toList = some 1) ∧
    (naive_distance "foo".toList "bar".toList = some 3 ∧
      matrix_distance "foo".toList "bar".toList = some 3 ∧
      double_row_distance "foo".toList "bar".toList = some 3 ∧
      single_row_distance "foo".toList "bar".toList = some 3) ∧
    (naive_distance "fab".toList "bar".toList = some 2 ∧
      matrix_distance "fab".toList "bar".toList = some 2 ∧
      double_row_distance "fab".toList "bar".toList = some 2 ∧
      single_row_distance "fab".toList "bar".toList = some 2) ∧
    (naive_distance "aaa".toList "bbb".toList = some 3 ∧
      matrix_distance "aaa".toList "bbb".toList = some 3 ∧
      double_row_distance "aaa".toList "bbb".toList = some 3 ∧
      single_row_distance "aaa".toList "bbb".toList = some 3) ∧
    (naive_distance "aaaaaa".toList "bbb".toList = some 6 ∧
      matrix_distance "aaaaaa".toList "bbb".toList = some 6 ∧
      double_row_distance "aaaaaa".toList "bbb".toList = some 6 ∧
      single_row_distance "aaaaaa".toList "bbb".toList = some 6) ∧
    (naive_distance "aaa".toList "bbbbbb".toList = some 6 ∧
      matrix_distance "aaa".toList "bbbbbb".toList = some 6 ∧
      double_row_distance "aaa".toList "bbbbbb".toList = some 6 ∧
      single_row_distance "aaa".toList "bbbbbb".toList = some 6) ∧
    (naive_distance "aaaaaa".toList "bbbbbb".toList = some 6 ∧
      matrix_distance "aaaaaa".toList "bbbbbb".toList = some 6 ∧
      double_row_distance "aaaaaa".toList "bbbbbb".toList = some 6 ∧
      single_row_distance "aaaaaa".toList "bbbbbb".toList = some 6) ∧
    (naive_distance "ababab".toList "bababa".toList = some 2 ∧
      matrix_distance "ababab".toList "bababa".toList = some 2 ∧
      double_row_distance "ababab".toList "bababa".toList = some 2 ∧
      single_row_distance "ababab".toList "bababa".toList = some 2) ∧
    (naive_distance "aaaaa".toList "baaaaa".toList = some 1 ∧
      matrix_distance "aaaaa".toList "baaaaa".toList = some 1 ∧
      double_row_distance "aaaaa".toList "baaaaa".toList = some 1 ∧
      single_row_distance "aaaaa".toList "baaaaa".toList = some 1) ∧
    (naive_distance "aabaa".toList "aaaa".toList = some 1 ∧
      matrix_distance "aabaa".toList "aaaa".toList = some 1 ∧
      double_row_distance "aabaa".toList "aaaa".toList = some 1 ∧
      single_row_distance "aabaa".toList "aaaa".toList = some 1) :=
  ⟨⟨rfl, rfl, rfl, rfl⟩, ⟨rfl, rfl, rfl, rfl⟩, ⟨rfl, rfl, rfl, rfl⟩,
    ⟨rfl, rfl, rfl, rfl⟩, ⟨rfl, rfl, rfl, rfl⟩, ⟨rfl, rfl, rfl, rfl⟩,
    ⟨rfl, rfl, rfl, rfl⟩, ⟨rfl, rfl, rfl, rfl⟩, ⟨rfl, rfl, rfl, rfl⟩,
    ⟨rfl, rfl, rfl, rfl⟩⟩

/-- C10: all lengths used by the implementation are UTF-8 byte lengths:
the empty-against-`s` distances are the byte length of `s` (so 2, not 1,
for `"é"`), and the working row is allocated with `byteLen a + 1`
entries. -/
theorem C10_byte_lengths :
    (∀ b : List Char, distance [] b = some (byteLen b)) ∧
    (∀ a : List Char, distance a [] = some (byteLen a)) ∧
    distance [] ['é'] = some 2 ∧ (['é'] : List Char).length = 1 ∧
    (∀ a : List Char, ∃ r : List Nat, initRow a = some r ∧
      r.length = byteLen a + 1) := by
  have hp : pad ([] : List Char) = [] := rfl
  refine ⟨?_, ?_, rfl, rfl, ?_⟩
  · intro b
    rw [distance_eq, hp, lev_nil_left, pad_length]
  · intro a
    rw [distance_eq, hp, lev_nil_right, pad_length]
  · intro a
    exact ⟨List.range (byteLen a + 1), initRow_eq a, List.length_range _⟩

/-- C9: the loop invariant of the single-row computation, stated on
single-byte inputs, where byte positions coincide with character
positions.  At the start of processing row `y` (after `y` outer
iterations), cell `x` of the row holds the distance between the prefixes
`a[0..x]` and `b[0..y]`; the head update then sets `row[0] = y + 1`; and
in the inner loop, just before `row[x+1]` is computed (that is, after `x`
inner iterations), the scratch scalar holds the diagonal value, the
distance between `a[0..x]` and `b[0..y]`. -/
theorem C9_invariant (a b : List Char)
    (ha : ∀ c ∈ a, c.utf8Size = 1) (hb : ∀ c ∈ b, c.utf8Size = 1)
    (_hane : a ≠ []) (_hbne : b ≠ []) (y : Nat) (hy : y < b.length) :
    ∃ st : Nat × List Nat,
      (List.range y).foldlM (srRow a b) (0, List.range (byteLen a + 1)) = some st ∧
      (∀ x, x ≤ a.length → st.2[x]? = some (lev (a.take x) (b.take y))) ∧
      ∃ row₂ : List Nat, vset st.2 0 (y + 1) = some row₂ ∧
        row₂[0]? = some (y + 1) ∧
        ∀ x, x ≤ a.length →
          ∃ st' : Nat × List Nat,
            (List.range x).foldlM (srStep a b y) (y, row₂) = some st' ∧
            st'.1 = lev (a.take x) (b.take y) := by
  have hba : byteLen a = a.length := byteLen_of_ascii ha
  have hbb : byteLen b = b.length := byteLen_of_ascii hb
  obtain ⟨st, hfold, hlen, hrow⟩ := srRow_fold a b y (by omega)
  refine ⟨st, hfold, ?_, ?_⟩
  · intro x hx
    rw [hrow x (by omega), levP_pad_ascii ha hb]
  · have hset : vset st.2 0 (y + 1) = some (st.2.set 0 (y + 1)) :=
      vset_eq_some _ _ _ (by omega)
    refine ⟨st.2.set 0 (y + 1), hset, ?_, ?_⟩
    · rw [List.getElem?_set_self (by omega)]
    · intro x hx
      have hrow1 : ∀ i, i ≤ byteLen a →
          (st.2.set 0 (y + 1))[i]? =
            some (if i ≤ 0 then levP (pad a) (pad b) i (y + 1)
                  else levP (pad a) (pad b) i y) := by
        intro i hi
        by_cases hi0 : i = 0
        · subst hi0
          rw [List.getElem?_set_self (by omega), if_pos (by omega),
            levP_zero_left _ _ _ (by rw [pad_length]; omega)]
        · rw [List.getElem?_set_ne (fun hc => hi0 hc.symm), if_neg (by omega)]
          exact hrow i hi
      obtain ⟨row', hfold', hlen', hrow'⟩ :=
        srStep_fold a b y (by omega) x (by omega) (st.2.set 0 (y + 1))
          (by simp [hlen]) hrow1
      rw [levP_zero_left (pad a) (pad b) y (by rw [pad_length]; omega)] at hfold'
      exact ⟨(levP (pad a) (pad b) x y, row'), hfold', levP_pad_ascii ha hb x y⟩

/-- C9, witness: the invariant theorem applied at `a = "a"`, `b = "bc"`,
row `y = 1`. -/
theorem C9_witness :
    (∀ c ∈ (['a'] : List Char), c.utf8Size = 1) ∧
    (∀ c ∈ (['b', 'c'] : List Char), c.utf8Size = 1) ∧
    (['a'] : List Char) ≠ [] ∧ (['b', 'c'] : List Char) ≠ [] ∧
    1 < (['b', 'c'] : List Char).length ∧
    (∃ st : Nat × List Nat,
      (List.range 1).foldlM (srRow ['a'] ['b', 'c'])
          (0, List.range (byteLen ['a'] + 1)) = some st ∧
      (∀ x, x ≤ (['a'] : List Char).length →
        st.2[x]? = some (lev ((['a'] : List Char).take x)
          ((['b', 'c'] : List Char).take 1))) ∧
      ∃ row₂ : List Nat, vset st.2 0 (1 + 1) = some row₂ ∧
        row₂[0]? = some (1 + 1) ∧
        ∀ x, x ≤ (['a'] : List Char).length →
          ∃ st' : Nat × List Nat,
            (List.range x).foldlM (srStep ['a'] ['b', 'c'] 1) (1, row₂) = some st' ∧
            st'.1 = lev ((['a'] : List Char).take x) ((['b', 'c'] : List Char).take 1)) :=
  ⟨by decide, by decide, by decide, by decide, by decide,
    C9_invariant ['a'] ['b', 'c'] (by decide) (by decide) (by decide) (by decide)
      1 (by decide)⟩

end LevRs
